import Mathlib

/-!
# Base58 codec (bs58): shallow embedding and verification

This file embeds the Base58 codec of the `bs58` crate and proves the
specification's claims about it.  The crate's public surface (`bs58::encode`,
`bs58::decode`, builders, buffer variants) is in `src/lib.rs`; the bodies of
the `alphabet`, `encode` and `decode` modules are not part of the provided
sources, so the core algorithms below are modelled from the specification's
algorithm descriptions (radix conversion, leading-zero handling, error
taxonomy, buffer-commit discipline), with bytes as `Nat` and byte strings as
`List Nat`.
-/

namespace Bs58

/-- Modelled from the spec: fuelled base-`base` digit extraction,
least-significant digit first ("repeatedly divide by 58, collecting
remainders ... until the value reaches zero").  The fuel argument only makes
the recursion structural; `digits` supplies enough fuel. -/
def digitsAux (base : Nat) : Nat → Nat → List Nat
  | 0, _ => []
  | fuel + 1, n => if n = 0 then [] else n % base :: digitsAux base fuel (n / base)

/-- Modelled from the spec: the base-`base` digits of `n`, least-significant
first; `digits base 0 = []`. -/
def digits (base n : Nat) : List Nat :=
  digitsAux base (n + 1) n

/-- Value of a least-significant-first digit list. -/
def ofDigits (base : Nat) : List Nat → Nat
  | [] => 0
  | d :: ds => d + base * ofDigits base ds

/-- Modelled from the spec: an alphabet is an ordered table of 58 one-byte
symbols, index = digit value. -/
structure Alphabet where
  enc : List Nat
  deriving DecidableEq, Repr

/-- Modelled from the spec: the alphabet invariants — exactly 58 entries,
pairwise distinct, all ASCII. -/
def Alphabet.Valid (A : Alphabet) : Prop :=
  A.enc.length = 58 ∧ A.enc.Nodup ∧ ∀ c ∈ A.enc, c < 128

/-- Modelled from the spec: the inverse (byte → digit value) lookup;
`none` is the "invalid" sentinel.  Satisfies the spec's invariant
`decode_table[encode_table[d]] = d` for a valid alphabet. -/
def Alphabet.lookup (A : Alphabet) (c : Nat) : Option Nat :=
  A.enc.findIdx? (· == c)

/-- The alphabet's zero-digit symbol `encode_table[0]`. -/
def Alphabet.zero (A : Alphabet) : Nat :=
  A.enc.getD 0 0

/-- Modelled from the spec: the default (Bitcoin) alphabet
`123456789ABCDEFGHJKLMNPQRSTUVWXYZabcdefghijkmnopqrstuvwxyz`,
given here by its ASCII byte values. -/
def DEFAULT : Alphabet :=
  ⟨[49, 50, 51, 52, 53, 54, 55, 56, 57,
    65, 66, 67, 68, 69, 70, 71, 72, 74, 75, 76, 77, 78,
    80, 81, 82, 83, 84, 85, 86, 87, 88, 89, 90,
    97, 98, 99, 100, 101, 102, 103, 104, 105, 106, 107,
    109, 110, 111, 112, 113, 114, 115, 116, 117, 118, 119, 120, 121, 122]⟩

/-- Modelled from the spec: the decode error taxonomy. -/
inductive DecodeError where
  | bufferTooSmall
  | invalidCharacter (character : Char) (index : Nat)
  | nonAsciiCharacter (index : Nat)
  | invalidChecksum (checksum expected : List Nat)
  deriving DecidableEq, Repr

/-- Modelled from the spec: the encode error taxonomy. -/
inductive EncodeError where
  | bufferTooSmall
  deriving DecidableEq, Repr

/-- Modelled from the spec: the checksum configuration — disabled, or enabled
with an optional version byte. -/
inductive Check where
  | disabled
  | enabled (version : Option Nat)
  deriving DecidableEq, Repr

/-- Modelled from the spec, Encoder algorithm (no checksum step): count the
leading zero bytes, treat the remaining bytes as a big-endian integer,
collect base-58 remainders least-significant first, map them through the
encode table, reverse to most-significant first, and put one `encode_table[0]`
symbol in front for each leading zero byte. -/
def encodeBase (A : Alphabet) (input : List Nat) : List Nat :=
  let zeros := input.takeWhile (· == 0)
  let rest := input.dropWhile (· == 0)
  let n := rest.foldl (fun a b => a * 256 + b) 0
  List.replicate zeros.length A.zero ++
    ((digits 58 n).map (fun d => A.enc.getD d 0)).reverse

/-- Modelled from the spec, Decoder steps 1-2: scan the input left to right;
for each byte first reject immediately if it exceeds the ASCII range
(non-ASCII error with its index), then look it up in the inverse table
(invalid-character error carrying the character and index on the sentinel).
Returns the digit values. -/
def toDigitValues (A : Alphabet) : List Nat → Nat → Except DecodeError (List Nat)
  | [], _ => .ok []
  | c :: cs, i =>
    if 127 < c then .error (.nonAsciiCharacter i)
    else
      match A.lookup c with
      | none => .error (.invalidCharacter (Char.ofNat c) i)
      | some d =>
        match toDigitValues A cs (i + 1) with
        | .error e => .error e
        | .ok ds => .ok (d :: ds)

/-- Modelled from the spec, Decoder steps 3-5: count leading zero digits,
accumulate the remaining digits big-endian by repeated multiply-by-58-add,
convert the value to big-endian bytes and put back one zero byte per leading
zero digit. -/
def decodeBase (A : Alphabet) (input : List Nat) : Except DecodeError (List Nat) :=
  match toDigitValues A input 0 with
  | .error e => .error e
  | .ok ds =>
    let zeros := ds.takeWhile (· == 0)
    let rest := ds.dropWhile (· == 0)
    let n := rest.foldl (fun a d => a * 58 + d) 0
    .ok (List.replicate zeros.length 0 ++ (digits 256 n).reverse)

/-- The checksum suffix length. -/
def CHECKSUM_LEN : Nat := 4

/-- Modelled from the spec: the checksum payload — the input, optionally
preceded by a version byte, all covered by the hash. -/
def checkBody (version : Option Nat) (payload : List Nat) : List Nat :=
  match version with
  | none => payload
  | some v => v :: payload

/-- Modelled from the spec: full encode.  With checksum enabled the payload
is extended by the first 4 bytes of `hash (hash payload)` before radix
conversion; the hash is the spec's opaque `Hash256` collaborator. -/
def encode (hash : List Nat → List Nat) (A : Alphabet) (ck : Check)
    (input : List Nat) : List Nat :=
  match ck with
  | .disabled => encodeBase A input
  | .enabled version =>
    let body := checkBody version input
    encodeBase A (body ++ (hash (hash body)).take CHECKSUM_LEN)

/-- Modelled from the spec: full decode.  With checksum enabled the trailing
4 payload bytes are the claimed checksum; it is recomputed over the rest and
compared byte-for-byte, failing with an invalid-checksum error carrying both
on mismatch; on match the trailing 4 bytes are stripped, and the leading
version byte too when one is configured. -/
def decode (hash : List Nat → List Nat) (A : Alphabet) (ck : Check)
    (input : List Nat) : Except DecodeError (List Nat) :=
  match decodeBase A input with
  | .error e => .error e
  | .ok payload =>
    match ck with
    | .disabled => .ok payload
    | .enabled version =>
      let body := payload.take (payload.length - CHECKSUM_LEN)
      let checksum := payload.drop (payload.length - CHECKSUM_LEN)
      let expected := (hash (hash body)).take CHECKSUM_LEN
      if checksum = expected then
        .ok (match version with
             | none => body
             | some _ => body.drop 1)
      else .error (.invalidChecksum checksum expected)

/-- Modelled from the spec: caller-buffer decode.  The required length is
computed first and committed to the caller's buffer only if it fits; on
insufficient capacity it fails with the buffer-too-small error and the buffer
is left unmodified.  On success the decoded bytes are written as a prefix,
the byte count is returned, and the rest of the buffer keeps its prior
contents.  The pair is (call result, buffer after the call). -/
def decodeInto (hash : List Nat → List Nat) (A : Alphabet) (ck : Check)
    (input : List Nat) (buf : List Nat) : Except DecodeError Nat × List Nat :=
  match decode hash A ck input with
  | .error e => (.error e, buf)
  | .ok bytes =>
    if buf.length < bytes.length then (.error .bufferTooSmall, buf)
    else (.ok bytes.length, bytes ++ buf.drop bytes.length)

/-- Modelled from the spec: caller-buffer encode, with the same
commit-on-success / no-partial-write-on-failure discipline as decode. -/
def encodeInto (hash : List Nat → List Nat) (A : Alphabet) (ck : Check)
    (input : List Nat) (buf : List Nat) : Except EncodeError Nat × List Nat :=
  let s := encode hash A ck input
  if buf.length < s.length then (.error .bufferTooSmall, buf)
  else (.ok s.length, s ++ buf.drop s.length)

/-- Modelled from the spec: encode into an existing owned / resizable text
buffer.  The previous contents are replaced entirely: after the call the
buffer holds exactly the encoding of the input. -/
def encodeIntoResizable (hash : List Nat → List Nat) (A : Alphabet) (ck : Check)
    (input : List Nat) (_prev : List Nat) : List Nat :=
  encode hash A ck input

/-- Number of leading occurrences of `x` at the front of `l`. -/
def countLeading (x : Nat) (l : List Nat) : Nat :=
  (l.takeWhile (· == x)).length

/-- Well-behavedness of the opaque hash collaborator: a `Hash256` returns 32
bytes. -/
def HashOk (hash : List Nat → List Nat) : Prop :=
  ∀ l, (hash l).length = 32 ∧ ∀ x ∈ hash l, x < 256

/-- A checksum configuration whose version byte, if any, is a byte. -/
def Check.Ok : Check → Prop
  | .disabled => True
  | .enabled none => True
  | .enabled (some v) => v < 256

instance {ε α : Type} [DecidableEq ε] [DecidableEq α] : DecidableEq (Except ε α) :=
  fun a b =>
    match a, b with
    | .error e₁, .error e₂ => decidable_of_iff (e₁ = e₂) (by simp)
    | .error _, .ok _ => .isFalse (by simp)
    | .ok _, .error _ => .isFalse (by simp)
    | .ok x, .ok y => decidable_of_iff (x = y) (by simp)

instance (A : Alphabet) : Decidable A.Valid := by
  unfold Alphabet.Valid
  infer_instance

instance : ∀ ck : Check, Decidable ck.Ok
  | .disabled => .isTrue trivial
  | .enabled none => .isTrue trivial
  | .enabled (some v) => Nat.decLt v 256

/-! ## Lemmas about the digit conversion -/

theorem digitsAux_congr (base : Nat) (hbase : 2 ≤ base) :
    ∀ f₁ n f₂, n < f₁ → n < f₂ → digitsAux base f₁ n = digitsAux base f₂ n := by
  intro f₁
  induction f₁ with
  | zero => intro n f₂ h₁ _; omega
  | succ f ih =>
    intro n f₂ h₁ h₂
    cases f₂ with
    | zero => omega
    | succ g =>
      by_cases hn : n = 0
      · simp [digitsAux, hn]
      · simp only [digitsAux, if_neg hn]
        have hdiv : n / base < n := Nat.div_lt_self (Nat.pos_of_ne_zero hn) (by omega)
        exact congrArg _ (ih (n / base) g (by omega) (by omega))

theorem digits_zero (base : Nat) : digits base 0 = [] := rfl

theorem digits_eq (base : Nat) (hbase : 2 ≤ base) (n : Nat) (hn : n ≠ 0) :
    digits base n = n % base :: digits base (n / base) := by
  have hdiv : n / base < n := Nat.div_lt_self (Nat.pos_of_ne_zero hn) (by omega)
  have h1 : digits base n = n % base :: digitsAux base n (n / base) := by
    simp only [digits, digitsAux, if_neg hn]
  rw [h1]
  exact congrArg _
    (digitsAux_congr base hbase n (n / base) (n / base + 1) hdiv (by omega))

theorem digits_ne_nil (base : Nat) (hbase : 2 ≤ base) (n : Nat) (hn : n ≠ 0) :
    digits base n ≠ [] := by
  rw [digits_eq base hbase n hn]
  simp

theorem ofDigits_digits (base : Nat) (hbase : 2 ≤ base) :
    ∀ n, ofDigits base (digits base n) = n := by
  intro n
  induction n using Nat.strong_induction_on with
  | _ n ih =>
    by_cases hn : n = 0
    · subst hn; rfl
    · rw [digits_eq base hbase n hn]
      simp only [ofDigits]
      rw [ih (n / base) (Nat.div_lt_self (Nat.pos_of_ne_zero hn) (by omega))]
      exact Nat.mod_add_div n base

theorem digits_lt (base : Nat) (hbase : 2 ≤ base) :
    ∀ n d, d ∈ digits base n → d < base := by
  intro n
  induction n using Nat.strong_induction_on with
  | _ n ih =>
    intro d hd
    by_cases hn : n = 0
    · rw [hn, digits_zero] at hd; cases hd
    · rw [digits_eq base hbase n hn] at hd
      rcases List.mem_cons.mp hd with h | h
      · subst h; exact Nat.mod_lt n (by omega)
      · exact ih (n / base) (Nat.div_lt_self (Nat.pos_of_ne_zero hn) (by omega)) d h

theorem digits_getLast_ne_zero (base : Nat) (hbase : 2 ≤ base) :
    ∀ n d, (digits base n).getLast? = some d → d ≠ 0 := by
  intro n
  induction n using Nat.strong_induction_on with
  | _ n ih =>
    intro d hd
    by_cases hn : n = 0
    · rw [hn, digits_zero] at hd; cases hd
    · rw [digits_eq base hbase n hn] at hd
      by_cases hq : n / base = 0
      · rw [hq, digits_zero] at hd
        simp only [List.getLast?_singleton, Option.some.injEq] at hd
        have h3 := Nat.div_add_mod n base
        rw [hq] at h3
        omega
      · have hne := digits_ne_nil base hbase (n / base) hq
        obtain ⟨e, s, hs⟩ := List.exists_cons_of_ne_nil hne
        rw [hs, List.getLast?_cons_cons] at hd
        exact ih (n / base) (Nat.div_lt_self (Nat.pos_of_ne_zero hn) (by omega)) d
          (by rw [hs]; exact hd)

theorem ofDigits_append (base : Nat) (l : List Nat) (d : Nat) :
    ofDigits base (l ++ [d]) = ofDigits base l + d * base ^ l.length := by
  induction l with
  | nil => simp [ofDigits]
  | cons a s ih =>
    show a + base * ofDigits base (s ++ [d]) = a + base * ofDigits base s + d * base ^ (s.length + 1)
    rw [ih]
    ring

theorem foldl_mul_add (base : Nat) :
    ∀ (l : List Nat) (a : Nat),
      l.foldl (fun acc d => acc * base + d) a =
        a * base ^ l.length + ofDigits base l.reverse := by
  intro l
  induction l with
  | nil => intro a; simp [ofDigits]
  | cons d s ih =>
    intro a
    simp only [List.foldl_cons, ih, List.reverse_cons, ofDigits_append,
      List.length_reverse, List.length_cons]
    ring

theorem ofDigits_pos (base : Nat) (hbase : 1 ≤ base) :
    ∀ (l : List Nat) (d : Nat), l.getLast? = some d → d ≠ 0 → 0 < ofDigits base l := by
  intro l
  induction l with
  | nil => intro d hd _; cases hd
  | cons a s ih =>
    intro d hd hd0
    cases s with
    | nil =>
      simp only [List.getLast?_singleton, Option.some.injEq] at hd
      simp only [ofDigits]
      omega
    | cons e s2 =>
      rw [List.getLast?_cons_cons] at hd
      have hpos := ih d hd hd0
      have hmul : base * 1 ≤ base * ofDigits base (e :: s2) := Nat.mul_le_mul_left base hpos
      show 0 < a + base * ofDigits base (e :: s2)
      omega

theorem ofDigits_lt (base : Nat) :
    ∀ (l : List Nat), (∀ d ∈ l, d < base) → ofDigits base l < base ^ l.length := by
  intro l
  induction l with
  | nil => intro _; simp [ofDigits]
  | cons a s ih =>
    intro h
    have ha : a < base := h a (List.mem_cons_self a s)
    have hs : ofDigits base s < base ^ s.length :=
      ih (fun d hd => h d (List.mem_cons_of_mem a hd))
    simp only [ofDigits, List.length_cons, pow_succ]
    calc a + base * ofDigits base s
        < base + base * ofDigits base s := by omega
      _ = base * (ofDigits base s + 1) := by ring
      _ ≤ base * base ^ s.length := Nat.mul_le_mul_left base (by omega)
      _ = base ^ s.length * base := by ring

theorem digits_ofDigits (base : Nat) (hbase : 2 ≤ base) :
    ∀ (l : List Nat), (∀ d ∈ l, d < base) →
      (∀ d, l.getLast? = some d → d ≠ 0) →
      digits base (ofDigits base l) = l := by
  intro l
  induction l with
  | nil => intro _ _; rfl
  | cons a s ih =>
    intro hlt hlast
    have ha : a < base := hlt a (List.mem_cons_self a s)
    cases s with
    | nil =>
      have ha0 : a ≠ 0 := hlast a (by simp)
      have hval : ofDigits base [a] = a := by simp [ofDigits]
      rw [hval, digits_eq base hbase a ha0, Nat.mod_eq_of_lt ha, Nat.div_eq_of_lt ha,
        digits_zero]
    | cons e s2 =>
      have hne : (e :: s2 : List Nat) ≠ [] := by simp
      obtain ⟨m, hm⟩ := Option.isSome_iff_exists.mp (List.getLast?_isSome.mpr hne)
      have hm0 : m ≠ 0 := hlast m (by rw [List.getLast?_cons_cons]; exact hm)
      have hpos : 0 < ofDigits base (e :: s2) := ofDigits_pos base (by omega) _ m hm hm0
      have hmul : base * 1 ≤ base * ofDigits base (e :: s2) :=
        Nat.mul_le_mul_left base hpos
      have hval : ofDigits base (a :: e :: s2) = a + base * ofDigits base (e :: s2) := rfl
      have hn0 : ofDigits base (a :: e :: s2) ≠ 0 := by rw [hval]; omega
      rw [digits_eq base hbase _ hn0, hval, Nat.add_mul_mod_self_left,
        Nat.mod_eq_of_lt ha, Nat.add_mul_div_left a _ (by omega : 0 < base),
        Nat.div_eq_of_lt ha, Nat.zero_add]
      exact congrArg _ (ih (fun d hd => hlt d (List.mem_cons_of_mem a hd))
        (fun d hd => hlast d (by rw [List.getLast?_cons_cons]; exact hd)))

/-! ## Lemmas about leading runs -/

theorem takeWhile_beq_replicate (x : Nat) :
    ∀ l : List Nat, l.takeWhile (· == x) = List.replicate ((l.takeWhile (· == x)).length) x := by
  intro l
  induction l with
  | nil => rfl
  | cons a t ih =>
    by_cases h : a = x
    · subst h
      rw [List.takeWhile_cons_of_pos (by simp)]
      simp only [List.length_cons, List.replicate_succ]
      exact congrArg _ ih
    · rw [List.takeWhile_cons_of_neg (by simpa using h)]
      rfl

theorem replicate_append_decomp (x : Nat) (l : List Nat) :
    List.replicate ((l.takeWhile (· == x)).length) x ++ l.dropWhile (· == x) = l := by
  rw [← takeWhile_beq_replicate]
  exact List.takeWhile_append_dropWhile (· == x) l

theorem head?_dropWhile_beq (x : Nat) (l : List Nat) :
    ∀ a, (l.dropWhile (· == x)).head? = some a → a ≠ x := by
  intro a ha
  have h := List.head?_dropWhile_not (· == x) l
  rw [ha] at h
  simpa using h

theorem takeWhile_replicate_append_length (x k : Nat) :
    ∀ l : List Nat, (∀ a, l.head? = some a → a ≠ x) →
      ((List.replicate k x ++ l).takeWhile (· == x)).length = k := by
  induction k with
  | zero =>
    intro l h
    cases l with
    | nil => rfl
    | cons a t =>
      simp only [List.replicate_zero, List.nil_append]
      rw [List.takeWhile_cons_of_neg (by simpa using h a rfl)]
      rfl
  | succ m ih =>
    intro l h
    rw [List.replicate_succ, List.cons_append,
      List.takeWhile_cons_of_pos (by simp), List.length_cons, ih l h]

theorem dropWhile_replicate_append (x k : Nat) :
    ∀ l : List Nat, (∀ a, l.head? = some a → a ≠ x) →
      (List.replicate k x ++ l).dropWhile (· == x) = l := by
  induction k with
  | zero =>
    intro l h
    cases l with
    | nil => rfl
    | cons a t =>
      simp only [List.replicate_zero, List.nil_append]
      exact List.dropWhile_cons_of_neg (by simpa using h a rfl)
  | succ m ih =>
    intro l h
    rw [List.replicate_succ, List.cons_append, List.dropWhile_cons_of_pos (by simp), ih l h]

/-! ## Lemmas about alphabets -/

theorem Alphabet.lookup_getD (A : Alphabet) (hnd : A.enc.Nodup) (d : Nat)
    (hd : d < A.enc.length) : A.lookup (A.enc.getD d 0) = some d := by
  have hgd : A.enc.getD d 0 = A.enc[d] := by
    rw [List.getD_eq_getElem?_getD, List.getElem?_eq_getElem hd]
    rfl
  rw [Alphabet.lookup, List.findIdx?_eq_some_iff_getElem]
  refine ⟨hd, by rw [hgd]; simp, ?_⟩
  intro j hj
  simp only [hgd, beq_iff_eq, Bool.not_eq_true, Bool.not_eq_true']
  intro hEq
  have hinj := List.nodup_iff_injective_getElem.mp hnd
  have h2 := @hinj ⟨j, by omega⟩ ⟨d, hd⟩ hEq
  simp only [Fin.mk.injEq] at h2
  omega

theorem Alphabet.lookup_mem (A : Alphabet) (c d : Nat) (h : A.lookup c = some d) :
    ∃ hd : d < A.enc.length, A.enc[d] = c := by
  rw [Alphabet.lookup, List.findIdx?_eq_some_iff_getElem] at h
  obtain ⟨hd, h1, _⟩ := h
  exact ⟨hd, by simpa using h1⟩

theorem Alphabet.lookup_zero_iff (A : Alphabet) (hA : A.Valid) (c d : Nat)
    (h : A.lookup c = some d) : c = A.zero ↔ d = 0 := by
  obtain ⟨hlen, hnd, _⟩ := hA
  have h0 : A.lookup A.zero = some 0 := A.lookup_getD hnd 0 (by omega)
  constructor
  · intro hc
    rw [hc, h0] at h
    exact (Option.some_inj.mp h).symm
  · intro hd0
    subst hd0
    obtain ⟨hdl, hEq⟩ := A.lookup_mem c 0 h
    rw [← hEq, Alphabet.zero, List.getD_eq_getElem?_getD, List.getElem?_eq_getElem hdl]
    rfl

/-! ## Lemmas about the decode scan -/

theorem toDigitValues_map (A : Alphabet) (hA : A.Valid) :
    ∀ (ds : List Nat), (∀ d ∈ ds, d < 58) → ∀ i,
      toDigitValues A (ds.map (fun d => A.enc.getD d 0)) i = .ok ds := by
  obtain ⟨hlen, hnd, hascii⟩ := hA
  intro ds
  induction ds with
  | nil => intro _ _; rfl
  | cons d t ih =>
    intro hlt i
    have hd58 : d < 58 := hlt d (List.mem_cons_self d t)
    have hdlen : d < A.enc.length := by omega
    have hmem : A.enc.getD d 0 ∈ A.enc := by
      rw [List.getD_eq_getElem?_getD, List.getElem?_eq_getElem hdlen]
      exact List.getElem_mem hdlen
    have hc : ¬ 127 < A.enc.getD d 0 := by
      have := hascii _ hmem; omega
    have hlook := A.lookup_getD hnd d hdlen
    simp only [List.map_cons, toDigitValues, if_neg hc, hlook,
      ih (fun x hx => hlt x (List.mem_cons_of_mem d hx)) (i + 1)]

theorem toDigitValues_forall₂ (A : Alphabet) :
    ∀ (input : List Nat) (i : Nat) (ds : List Nat),
      toDigitValues A input i = .ok ds →
      List.Forall₂ (fun c d => A.lookup c = some d) input ds := by
  intro input
  induction input with
  | nil =>
    intro i ds h
    cases h
    exact List.Forall₂.nil
  | cons c cs ih =>
    intro i ds h
    by_cases hc : 127 < c
    · simp only [toDigitValues, if_pos hc] at h
      cases h
    · simp only [toDigitValues, if_neg hc] at h
      cases hl : A.lookup c with
      | none => rw [hl] at h; cases h
      | some d =>
        rw [hl] at h
        cases hrec : toDigitValues A cs (i + 1) with
        | error e => rw [hrec] at h; cases h
        | ok ds2 =>
          rw [hrec] at h
          cases h
          exact List.Forall₂.cons hl (ih (i + 1) ds2 hrec)

theorem takeWhile_length_forall₂ (R : Nat → Nat → Prop) (p q : Nat → Bool)
    (hpq : ∀ a b, R a b → p a = q b) :
    ∀ l₁ l₂, List.Forall₂ R l₁ l₂ →
      (l₁.takeWhile p).length = (l₂.takeWhile q).length := by
  intro l₁ l₂ h
  induction h with
  | nil => rfl
  | @cons a b s₁ s₂ hab htail ih =>
    rw [List.takeWhile_cons, List.takeWhile_cons, hpq a b hab]
    by_cases hq : q b = true
    · rw [if_pos hq, if_pos hq]
      simp only [List.length_cons, ih]
    · rw [if_neg hq, if_neg hq]

/-! ## The core round trip -/

theorem decodeBase_encodeBase (A : Alphabet) (hA : A.Valid) (b : List Nat)
    (hb : ∀ x ∈ b, x < 256) : decodeBase A (encodeBase A b) = .ok b := by
  set z := (b.takeWhile (· == 0)).length with hz
  set t := b.dropWhile (· == 0) with ht
  have hdecomp : List.replicate z 0 ++ t = b := replicate_append_decomp 0 b
  have hthead : ∀ a, t.head? = some a → a ≠ 0 := head?_dropWhile_beq 0 b
  set n := t.foldl (fun a x => a * 256 + x) 0 with hn
  have hnval : n = ofDigits 256 t.reverse := by
    rw [hn, foldl_mul_add]
    simp
  have henc : encodeBase A b =
      List.map (fun d => A.enc.getD d 0) (List.replicate z 0 ++ (digits 58 n).reverse) := by
    simp only [encodeBase]
    rw [List.map_append, List.map_replicate, List.map_reverse]
    rfl
  have hd58 : ∀ d ∈ List.replicate z 0 ++ (digits 58 n).reverse, d < 58 := by
    intro d hd
    rcases List.mem_append.mp hd with h | h
    · have := List.eq_of_mem_replicate h
      omega
    · exact digits_lt 58 (by omega) n d (List.mem_reverse.mp h)
  rw [henc]
  simp only [decodeBase, toDigitValues_map A hA _ hd58 0]
  have hrhead : ∀ a, ((digits 58 n).reverse).head? = some a → a ≠ 0 := by
    intro a ha
    rw [List.head?_reverse] at ha
    exact digits_getLast_ne_zero 58 (by omega) n a ha
  rw [takeWhile_replicate_append_length 0 z _ hrhead,
    dropWhile_replicate_append 0 z _ hrhead]
  have hm : ((digits 58 n).reverse).foldl (fun a d => a * 58 + d) 0 = n := by
    rw [foldl_mul_add, List.reverse_reverse]
    simp [ofDigits_digits 58 (by omega) n]
  rw [hm]
  have h256 : digits 256 n = t.reverse := by
    rw [hnval]
    apply digits_ofDigits 256 (by omega)
    · intro d hd
      rw [List.mem_reverse] at hd
      exact hb d ((List.dropWhile_sublist (· == 0)).subset hd)
    · intro d hd
      rw [List.getLast?_reverse] at hd
      exact hthead d hd
  rw [h256, List.reverse_reverse, hdecomp]

/-! ## Error reporting by the decode scan -/

theorem toDigitValues_nonascii (A : Alphabet) :
    ∀ (input : List Nat) (i k : Nat), i < input.length →
      (∀ j, j < i → input.getD j 0 ≤ 127 ∧ A.lookup (input.getD j 0) ≠ none) →
      127 < input.getD i 0 →
      toDigitValues A input k = .error (.nonAsciiCharacter (k + i)) := by
  intro input
  induction input with
  | nil => intro i k hi _ _; simp at hi
  | cons c cs ih =>
    intro i k hi hpre hcur
    cases i with
    | zero =>
      have hc : 127 < c := by simpa using hcur
      simp only [toDigitValues, if_pos hc, Nat.add_zero]
    | succ m =>
      have h0 := hpre 0 (Nat.succ_pos m)
      rw [List.getD_cons_zero] at h0
      have hc : ¬ 127 < c := by omega
      obtain ⟨d, hd⟩ := Option.ne_none_iff_exists'.mp h0.2
      have hrec := ih m (k + 1) (by simpa using hi)
        (fun j hj => by simpa using hpre (j + 1) (by omega)) (by simpa using hcur)
      have harith : k + (m + 1) = (k + 1) + m := by omega
      rw [harith]
      simp only [toDigitValues, if_neg hc, hd, hrec]

theorem toDigitValues_invalid (A : Alphabet) :
    ∀ (input : List Nat) (i k : Nat), i < input.length →
      (∀ j, j < i → input.getD j 0 ≤ 127 ∧ A.lookup (input.getD j 0) ≠ none) →
      input.getD i 0 ≤ 127 → A.lookup (input.getD i 0) = none →
      toDigitValues A input k =
        .error (.invalidCharacter (Char.ofNat (input.getD i 0)) (k + i)) := by
  intro input
  induction input with
  | nil => intro i k hi _ _ _; simp at hi
  | cons c cs ih =>
    intro i k hi hpre hascii hbad
    cases i with
    | zero =>
      rw [List.getD_cons_zero] at hascii hbad
      have hc : ¬ 127 < c := by omega
      simp only [toDigitValues, if_neg hc, hbad, List.getD_cons_zero, Nat.add_zero]
    | succ m =>
      have h0 := hpre 0 (Nat.succ_pos m)
      rw [List.getD_cons_zero] at h0
      have hc : ¬ 127 < c := by omega
      obtain ⟨d, hd⟩ := Option.ne_none_iff_exists'.mp h0.2
      have hrec := ih m (k + 1) (by simpa using hi)
        (fun j hj => by simpa using hpre (j + 1) (by omega))
        (by simpa using hascii) (by simpa using hbad)
      have harith : k + (m + 1) = (k + 1) + m := by omega
      rw [List.getD_cons_succ, harith]
      simp only [toDigitValues, if_neg hc, hd, hrec]

theorem decodeBase_error (A : Alphabet) (input : List Nat) (e : DecodeError)
    (h : toDigitValues A input 0 = .error e) : decodeBase A input = .error e := by
  simp only [decodeBase, h]

/-! ## Length bounds -/

theorem pow_100_lt : 256 ^ 100 < 58 ^ 138 := by norm_num

theorem pow_length_le (base : Nat) (hbase : 2 ≤ base) :
    ∀ n, n ≠ 0 → base ^ ((digits base n).length - 1) ≤ n := by
  intro n
  induction n using Nat.strong_induction_on with
  | _ n ih =>
    intro hn
    rw [digits_eq base hbase n hn]
    by_cases hq : n / base = 0
    · rw [hq, digits_zero]
      simpa using Nat.one_le_iff_ne_zero.mpr hn
    · have hlt := Nat.div_lt_self (Nat.pos_of_ne_zero hn) (by omega : 1 < base)
      have hle := ih (n / base) hlt hq
      have hnen := digits_ne_nil base hbase (n / base) hq
      have hlen1 : 1 ≤ (digits base (n / base)).length := by
        cases hdl : digits base (n / base) with
        | nil => exact absurd hdl hnen
        | cons e s => simp
      rw [List.length_cons]
      have harith : (digits base (n / base)).length + 1 - 1 =
          (digits base (n / base)).length - 1 + 1 := by omega
      rw [harith, pow_succ]
      calc base ^ ((digits base (n / base)).length - 1) * base
          ≤ (n / base) * base := Nat.mul_le_mul_right base hle
        _ ≤ n := by
            have := Nat.div_mul_le_self n base
            omega

theorem foldl_lt_pow (l : List Nat) (h : ∀ x ∈ l, x < 256) :
    l.foldl (fun a x => a * 256 + x) 0 < 256 ^ l.length := by
  rw [foldl_mul_add]
  simp only [Nat.zero_mul, Nat.zero_add]
  have hlt := ofDigits_lt 256 l.reverse (fun d hd => h d (List.mem_reverse.mp hd))
  rwa [List.length_reverse] at hlt

theorem encodeBase_length (A : Alphabet) (b : List Nat) :
    (encodeBase A b).length =
      (b.takeWhile (· == 0)).length +
        (digits 58 ((b.dropWhile (· == 0)).foldl (fun a x => a * 256 + x) 0)).length := by
  simp only [encodeBase]
  rw [List.length_append, List.length_replicate, List.length_reverse, List.length_map]

theorem Alphabet.getD_inj (A : Alphabet) (hnd : A.enc.Nodup) (a b : Nat)
    (ha : a < A.enc.length) (hb2 : b < A.enc.length)
    (h : A.enc.getD a 0 = A.enc.getD b 0) : a = b := by
  rw [List.getD_eq_getElem?_getD, List.getElem?_eq_getElem ha,
    List.getD_eq_getElem?_getD, List.getElem?_eq_getElem hb2] at h
  simp only [Option.getD_some] at h
  have hinj := List.nodup_iff_injective_getElem.mp hnd
  have h2 := @hinj ⟨a, ha⟩ ⟨b, hb2⟩ h
  simpa using h2

/-! ## The claims -/

/-- C1: for every byte sequence `b`, every valid alphabet and every checksum
configuration (the opaque hash returning 32 bytes, the configured version
byte being a byte), decoding the text produced by encoding `b` yields exactly
`b` back: decode is a left inverse of encode under the same configuration. -/
theorem decode_encode_roundtrip (hash : List Nat → List Nat) (A : Alphabet) (ck : Check)
    (b : List Nat) (hA : A.Valid) (hh : HashOk hash) (hck : ck.Ok)
    (hb : ∀ x ∈ b, x < 256) :
    decode hash A ck (encode hash A ck b) = .ok b := by
  cases ck with
  | disabled =>
    simp only [encode, decode, decodeBase_encodeBase A hA b hb]
  | enabled version =>
    have hbody : ∀ x ∈ checkBody version b, x < 256 := by
      cases version with
      | none => simpa [checkBody] using hb
      | some v =>
        intro x hx
        simp only [checkBody] at hx
        rcases List.mem_cons.mp hx with h | h
        · subst h; exact hck
        · exact hb x h
    have hckb : ∀ x ∈ checkBody version b ++ (hash (hash (checkBody version b))).take CHECKSUM_LEN,
        x < 256 := by
      intro x hx
      rcases List.mem_append.mp hx with h | h
      · exact hbody x h
      · exact (hh (hash (checkBody version b))).2 x (List.mem_of_mem_take h)
    have hcklen : ((hash (hash (checkBody version b))).take CHECKSUM_LEN).length =
        CHECKSUM_LEN := by
      rw [List.length_take, (hh (hash (checkBody version b))).1]
      rfl
    have hplen : (checkBody version b ++
        (hash (hash (checkBody version b))).take CHECKSUM_LEN).length - CHECKSUM_LEN =
        (checkBody version b).length := by
      rw [List.length_append, hcklen]
      omega
    simp only [encode, decode, decodeBase_encodeBase A hA _ hckb, hplen,
      List.take_left, List.drop_left, if_pos]
    cases version with
    | none => rfl
    | some v => rfl

/-- Witness for C1: the round trip evaluated at a concrete alphabet, hash,
checksum configuration and input. -/
theorem decode_encode_roundtrip_witness :
    DEFAULT.Valid ∧ Check.Ok (.enabled (some 1)) ∧
      decode (fun _ => List.replicate 32 9) DEFAULT (.enabled (some 1))
          (encode (fun _ => List.replicate 32 9) DEFAULT (.enabled (some 1)) [0, 255]) =
        .ok [0, 255] :=
  ⟨by decide, by decide,
    decode_encode_roundtrip (fun _ => List.replicate 32 9) DEFAULT (.enabled (some 1))
      [0, 255] (by decide)
      (fun l => ⟨List.length_replicate 32 9, fun x hx => by
        rw [List.eq_of_mem_replicate hx]; omega⟩)
      (by decide) (by decide)⟩

/-- C2: whenever a caller-buffer encode or decode call fails with the
buffer-too-small capacity error, the caller's buffer after the call is
byte-for-byte the buffer before the call; no partial output is written on
failure. -/
theorem buffer_unchanged_on_capacity_error (hash : List Nat → List Nat) (A : Alphabet)
    (ck : Check) (input buf : List Nat) :
    ((decodeInto hash A ck input buf).1 = .error .bufferTooSmall →
        (decodeInto hash A ck input buf).2 = buf) ∧
      ((encodeInto hash A ck input buf).1 = .error .bufferTooSmall →
        (encodeInto hash A ck input buf).2 = buf) := by
  constructor
  · intro h
    simp only [decodeInto] at h ⊢
    cases hd : decode hash A ck input with
    | error e => simp [hd]
    | ok bytes =>
      simp only [hd] at h ⊢
      by_cases hlt : buf.length < bytes.length
      · simp [hlt]
      · simp only [if_neg hlt] at h
        cases h
  · intro h
    simp only [encodeInto] at h ⊢
    by_cases hlt : buf.length < (encode hash A ck input).length
    · simp [hlt]
    · simp only [if_neg hlt] at h
      cases h

/-- Witness for C2: decoding the 8-byte text of "he11owor1d" into a 7-byte
buffer and encoding its byte value into a 7-byte buffer both fail with the
buffer-too-small error and leave the 7-byte buffer unchanged. -/
theorem buffer_unchanged_on_capacity_error_witness :
    (decodeInto (fun _ => []) DEFAULT .disabled
        [104, 101, 49, 49, 111, 119, 111, 114, 49, 100] (List.replicate 7 0)).1 =
      .error .bufferTooSmall ∧
    (decodeInto (fun _ => []) DEFAULT .disabled
        [104, 101, 49, 49, 111, 119, 111, 114, 49, 100] (List.replicate 7 0)).2 =
      List.replicate 7 0 ∧
    (encodeInto (fun _ => []) DEFAULT .disabled
        [4, 48, 94, 43, 36, 115, 240, 88] (List.replicate 7 0)).1 =
      .error .bufferTooSmall ∧
    (encodeInto (fun _ => []) DEFAULT .disabled
        [4, 48, 94, 43, 36, 115, 240, 88] (List.replicate 7 0)).2 =
      List.replicate 7 0 :=
  ⟨by decide,
    (buffer_unchanged_on_capacity_error (fun _ => []) DEFAULT .disabled
      [104, 101, 49, 49, 111, 119, 111, 114, 49, 100] (List.replicate 7 0)).1 (by decide),
    by decide,
    (buffer_unchanged_on_capacity_error (fun _ => []) DEFAULT .disabled
      [4, 48, 94, 43, 36, 115, 240, 88] (List.replicate 7 0)).2 (by decide)⟩

/-- C3: with the default alphabet, encoding the bytes
`[0x04, 0x30, 0x5e, 0x2b, 0x24, 0x73, 0xf0, 0x58]` produces the text
"he11owor1d" (ASCII bytes `[104, 101, 49, 49, 111, 119, 111, 114, 49, 100]`),
and decoding that text produces exactly those bytes back. -/
theorem hello_world_concrete :
    encodeBase DEFAULT [0x04, 0x30, 0x5e, 0x2b, 0x24, 0x73, 0xf0, 0x58] =
        [104, 101, 49, 49, 111, 119, 111, 114, 49, 100] ∧
      decodeBase DEFAULT [104, 101, 49, 49, 111, 119, 111, 114, 49, 100] =
        .ok [0x04, 0x30, 0x5e, 0x2b, 0x24, 0x73, 0xf0, 0x58] := by
  constructor
  · decide
  · decide

/-- C7: encoding the empty byte sequence yields the empty text, and decoding
the empty text yields the empty byte sequence (no checksum, any alphabet). -/
theorem empty_input_empty_output (A : Alphabet) :
    encodeBase A [] = [] ∧ decodeBase A [] = .ok [] :=
  ⟨rfl, rfl⟩

/-- C9: when a caller-buffer decode succeeds, the decoded bytes are written
as a prefix of the buffer, the returned count is the number of decoded bytes,
and every buffer byte past that count keeps its prior value. -/
theorem decodeInto_frame (hash : List Nat → List Nat) (A : Alphabet) (ck : Check)
    (input buf bytes : List Nat) (hd : decode hash A ck input = .ok bytes)
    (hle : bytes.length ≤ buf.length) :
    (decodeInto hash A ck input buf).1 = .ok bytes.length ∧
      (decodeInto hash A ck input buf).2.take bytes.length = bytes ∧
      (decodeInto hash A ck input buf).2.drop bytes.length = buf.drop bytes.length := by
  simp only [decodeInto, hd, if_neg (by omega : ¬ buf.length < bytes.length)]
  exact ⟨by simp, List.take_left bytes _, List.drop_left bytes _⟩

/-- Witness for C9: decoding "he11owor1d" into a 10-byte buffer of 0xFF
returns the count 8, writes the 8 decoded bytes as a prefix and leaves the
final two bytes equal to 0xFF. -/
theorem decodeInto_frame_witness :
    (decodeInto (fun _ => []) DEFAULT .disabled
        [104, 101, 49, 49, 111, 119, 111, 114, 49, 100] (List.replicate 10 255)).1 =
      .ok 8 ∧
    (decodeInto (fun _ => []) DEFAULT .disabled
        [104, 101, 49, 49, 111, 119, 111, 114, 49, 100] (List.replicate 10 255)).2.take 8 =
      [4, 48, 94, 43, 36, 115, 240, 88] ∧
    (decodeInto (fun _ => []) DEFAULT .disabled
        [104, 101, 49, 49, 111, 119, 111, 114, 49, 100] (List.replicate 10 255)).2.drop 8 =
      [255, 255] :=
  decodeInto_frame (fun _ => []) DEFAULT .disabled
    [104, 101, 49, 49, 111, 119, 111, 114, 49, 100] (List.replicate 10 255)
    [4, 48, 94, 43, 36, 115, 240, 88] (by decide) (by decide)

/-- C10: encoding into an existing owned / resizable text buffer replaces the
previous contents entirely: the buffer afterwards is exactly the encoding of
the input, whatever it held before.  In particular, encoding
`[0x04, 0x30, 0x5e, 0x2b, 0x24, 0x73, 0xf0, 0x58]` into a buffer holding
"goodbye world" leaves it holding exactly "he11owor1d". -/
theorem encodeIntoResizable_replaces :
    (∀ (hash : List Nat → List Nat) (A : Alphabet) (ck : Check) (input prev : List Nat),
        encodeIntoResizable hash A ck input prev = encode hash A ck input) ∧
      encodeIntoResizable (fun _ => []) DEFAULT .disabled
          [4, 48, 94, 43, 36, 115, 240, 88]
          [103, 111, 111, 100, 98, 121, 101, 32, 119, 111, 114, 108, 100] =
        [104, 101, 49, 49, 111, 119, 111, 114, 49, 100] :=
  ⟨fun _ _ _ _ _ => rfl, by decide⟩

/-- Counterexample for C4 as stated: the input `[200, 108]` contains an ASCII
byte (108, the letter l) that is not a member of the default alphabet, yet
decoding does not fail with an invalid-character error: it fails with the
non-ASCII error for the earlier byte 200 at index 0. -/
theorem invalid_character_claim_counterexample :
    (108 ∈ ([200, 108] : List Nat) ∧ 108 ≤ 127 ∧ DEFAULT.lookup 108 = none) ∧
      decodeBase DEFAULT [200, 108] = .error (.nonAsciiCharacter 0) ∧
      DecodeError.nonAsciiCharacter 0 ≠ .invalidCharacter 'l' 1 := by
  decide

/-- C4 (amended): if the input byte at index `i` is ASCII but not a member of
the configured alphabet, and every byte before `i` is an ASCII member of the
alphabet (so `i` is the leftmost offender of any kind), then decoding fails
with an invalid-character error carrying that character and its index. -/
theorem invalid_character_reported (A : Alphabet) (input : List Nat) (i : Nat)
    (hi : i < input.length)
    (hpre : ∀ j, j < i → input.getD j 0 ≤ 127 ∧ A.lookup (input.getD j 0) ≠ none)
    (hascii : input.getD i 0 ≤ 127) (hbad : A.lookup (input.getD i 0) = none) :
    decodeBase A input = .error (.invalidCharacter (Char.ofNat (input.getD i 0)) i) :=
  decodeBase_error A input _
    (by simpa using toDigitValues_invalid A input i 0 hi hpre hascii hbad)

/-- Witness for C4: decoding "hello world" with the default alphabet fails
with the invalid character l at index 2. -/
theorem invalid_character_reported_witness :
    ([104, 101, 108, 108, 111, 32, 119, 111, 114, 108, 100].getD 2 0 ≤ 127 ∧
        DEFAULT.lookup ([104, 101, 108, 108, 111, 32, 119, 111, 114, 108, 100].getD 2 0) =
          none) ∧
      decodeBase DEFAULT [104, 101, 108, 108, 111, 32, 119, 111, 114, 108, 100] =
        .error (.invalidCharacter 'l' 2) := by
  refine ⟨⟨by decide, by decide⟩, ?_⟩
  have h := invalid_character_reported DEFAULT
    [104, 101, 108, 108, 111, 32, 119, 111, 114, 108, 100] 2 (by decide) (by decide)
    (by decide) (by decide)
  have hc : Char.ofNat ([104, 101, 108, 108, 111, 32, 119, 111, 114, 108, 100].getD 2 0) =
      'l' := by decide
  rw [hc] at h
  exact h

/-- Counterexample for C5 as stated: the input `[32, 200]` contains a byte
exceeding the ASCII range (200 at index 1), yet decoding does not fail with a
non-ASCII error: it fails with the invalid-character error for the earlier
ASCII non-member byte 32 at index 0. -/
theorem nonascii_claim_counterexample :
    (200 ∈ ([32, 200] : List Nat) ∧ 127 < 200) ∧
      decodeBase DEFAULT [32, 200] = .error (.invalidCharacter (Char.ofNat 32) 0) ∧
      DecodeError.invalidCharacter (Char.ofNat 32) 0 ≠ .nonAsciiCharacter 1 := by
  decide

/-- C5 (amended): if the input byte at index `i` exceeds the ASCII range and
every byte before `i` is an ASCII member of the alphabet (so `i` is the
leftmost offender of any kind), then decoding fails with a non-ASCII-character
error carrying that index. -/
theorem nonascii_reported (A : Alphabet) (input : List Nat) (i : Nat)
    (hi : i < input.length)
    (hpre : ∀ j, j < i → input.getD j 0 ≤ 127 ∧ A.lookup (input.getD j 0) ≠ none)
    (hcur : 127 < input.getD i 0) :
    decodeBase A input = .error (.nonAsciiCharacter i) :=
  decodeBase_error A input _
    (by simpa using toDigitValues_nonascii A input i 0 hi hpre hcur)

/-- Witness for C5: decoding the UTF-8 bytes of "he11o🇳🇿" fails with the
non-ASCII error at index 5, the first byte of the first flag emoji. -/
theorem nonascii_reported_witness :
    127 < [104, 101, 49, 49, 111, 240, 159, 135, 179, 240, 159, 135, 191].getD 5 0 ∧
      decodeBase DEFAULT [104, 101, 49, 49, 111, 240, 159, 135, 179, 240, 159, 135, 191] =
        .error (.nonAsciiCharacter 5) :=
  ⟨by decide,
    nonascii_reported DEFAULT [104, 101, 49, 49, 111, 240, 159, 135, 179, 240, 159, 135, 191]
      5 (by decide) (by decide) (by decide)⟩

/-- C6: leading-zero preservation.  Encoding a payload with exactly `k`
leading zero bytes produces a text with exactly `k` leading copies of the
alphabet's zero symbol `encode_table[0]` (and no more), and a successfully
decoded text with exactly `k` leading zero symbols yields a payload with
exactly `k` leading zero bytes. -/
theorem leading_zero_preservation (A : Alphabet) (hA : A.Valid) :
    (∀ b : List Nat, (∀ x ∈ b, x < 256) →
        countLeading A.zero (encodeBase A b) = countLeading 0 b) ∧
      ∀ input payload, decodeBase A input = .ok payload →
        countLeading 0 payload = countLeading A.zero input := by
  obtain ⟨hlen, hnd, hascii⟩ := hA
  constructor
  · intro b hb
    simp only [countLeading, encodeBase]
    rw [← List.map_reverse]
    rw [takeWhile_replicate_append_length]
    intro a ha
    rw [List.head?_map] at ha
    obtain ⟨d0, hd0, hfd0⟩ := Option.map_eq_some'.mp ha
    rw [List.head?_reverse] at hd0
    have hd0ne : d0 ≠ 0 := digits_getLast_ne_zero 58 (by omega) _ d0 hd0
    obtain ⟨ys, hys⟩ := List.getLast?_eq_some_iff.mp hd0
    have hd0lt : d0 < 58 := digits_lt 58 (by omega) _ d0 (by rw [hys]; simp)
    subst hfd0
    intro hEq
    exact hd0ne (A.getD_inj hnd d0 0 (by omega) (by omega) hEq)
  · intro input payload hdec
    cases htv : toDigitValues A input 0 with
    | error e =>
      rw [decodeBase_error A input e htv] at hdec
      cases hdec
    | ok ds =>
      simp only [decodeBase, htv] at hdec
      injection hdec with hX
      subst hX
      have hf2 := toDigitValues_forall₂ A input 0 ds htv
      have hcl : (input.takeWhile (· == A.zero)).length =
          (ds.takeWhile (· == 0)).length := by
        apply takeWhile_length_forall₂ (fun c d => A.lookup c = some d) _ _ _ input ds hf2
        intro c d h
        have hiff := A.lookup_zero_iff ⟨hlen, hnd, hascii⟩ c d h
        by_cases hc : c = A.zero
        · have hd0 : d = 0 := hiff.mp hc
          subst hc
          subst hd0
          simp
        · have hdne : d ≠ 0 := fun h0 => hc (hiff.mpr h0)
          rw [Bool.eq_iff_iff]
          simp only [beq_iff_eq]
          exact ⟨fun h2 => absurd h2 hc, fun h2 => absurd h2 hdne⟩
      simp only [countLeading]
      rw [hcl, takeWhile_replicate_append_length]
      intro a ha
      rw [List.head?_reverse] at ha
      exact digits_getLast_ne_zero 256 (by omega) _ a ha

/-- Witness for C6: with the default alphabet, the payload `[0, 0, 7]` (two
leading zero bytes) encodes with exactly two leading zero symbols, and the
text "118" (two leading zero symbols) decodes to a payload with exactly two
leading zero bytes. -/
theorem leading_zero_preservation_witness :
    DEFAULT.Valid ∧
      countLeading DEFAULT.zero (encodeBase DEFAULT [0, 0, 7]) = countLeading 0 [0, 0, 7] ∧
      countLeading 0 [0, 0, 7] = countLeading DEFAULT.zero [49, 49, 56] :=
  ⟨by decide, (leading_zero_preservation DEFAULT (by decide)).1 [0, 0, 7] (by decide),
    (leading_zero_preservation DEFAULT (by decide)).2 [49, 49, 56] [0, 0, 7] (by decide)⟩

/-- C8: the encoded output length is at most
`ceil(len(payload) * log 256 / log 58) + z` symbols, where `z` is the number
of leading zero bytes of the payload, and is also bounded above by
`len(payload) * 138 / 100 + 1` (integer division). -/
theorem encode_length_bound (A : Alphabet) (b : List Nat)
    (hb : ∀ x ∈ b, x < 256) :
    (((encodeBase A b).length : ℤ) ≤
        ⌈(b.length : ℝ) * (Real.log 256 / Real.log 58)⌉ +
          ((b.takeWhile (· == 0)).length : ℤ)) ∧
      (encodeBase A b).length ≤ b.length * 138 / 100 + 1 := by
  have hsum := congrArg List.length (List.takeWhile_append_dropWhile (· == 0) b)
  rw [List.length_append] at hsum
  have hnlt : (b.dropWhile (· == 0)).foldl (fun a x => a * 256 + x) 0 <
      256 ^ (b.dropWhile (· == 0)).length :=
    foldl_lt_pow _ (fun x hx => hb x ((List.dropWhile_sublist (· == 0)).subset hx))
  have hlenout := encodeBase_length A b
  set L := b.length with hL
  set z := (b.takeWhile (· == 0)).length with hzdef
  set T := (b.dropWhile (· == 0)).length with hTdef
  set n := (b.dropWhile (· == 0)).foldl (fun a x => a * 256 + x) 0 with hndef
  set d := (digits 58 n).length with hddef
  rw [hlenout]
  by_cases hn0 : n = 0
  · have hd0 : d = 0 := by rw [hddef, hn0, digits_zero]; rfl
    constructor
    · rw [hd0, Nat.add_zero]
      have hx : (0:ℝ) ≤ (L : ℝ) * (Real.log 256 / Real.log 58) :=
        mul_nonneg (Nat.cast_nonneg L)
          (div_nonneg (Real.log_nonneg (by norm_num)) (Real.log_nonneg (by norm_num)))
      have hc := Int.ceil_nonneg hx
      omega
    · rw [hd0, Nat.add_zero]
      have hzL : z ≤ L := by omega
      have hL138 : L ≤ L * 138 / 100 := by
        rw [Nat.le_div_iff_mul_le (by omega : 0 < 100)]
        exact Nat.mul_le_mul_left L (by omega)
      omega
  · have hd1 : 1 ≤ d := by
      rw [hddef]
      cases hdl : digits 58 n with
      | nil => exact absurd hdl (digits_ne_nil 58 (by omega) n hn0)
      | cons e s => simp
    have hpl : 58 ^ (d - 1) ≤ n := by
      rw [hddef]
      exact pow_length_le 58 (by omega) n hn0
    have hcore : 58 ^ (d - 1) < 256 ^ T := by omega
    constructor
    · have hTL : T ≤ L := by omega
      have hlt2 : 58 ^ (d - 1) < 256 ^ L :=
        lt_of_lt_of_le hcore (Nat.pow_le_pow_right (by omega) hTL)
      have hR : ((58:ℝ)) ^ (d - 1) < (256:ℝ) ^ L := by exact_mod_cast hlt2
      have hlogpos : (0:ℝ) < Real.log 58 := Real.log_pos (by norm_num)
      have hlog : ((d - 1 : ℕ) : ℝ) * Real.log 58 < (L : ℝ) * Real.log 256 := by
        have h1 : Real.log ((58:ℝ) ^ (d - 1)) < Real.log ((256:ℝ) ^ L) :=
          Real.log_lt_log (pow_pos (by norm_num) _) hR
        rwa [Real.log_pow, Real.log_pow] at h1
      have hx : ((d - 1 : ℕ) : ℝ) < (L : ℝ) * (Real.log 256 / Real.log 58) := by
        rw [← mul_div_assoc, lt_div_iff₀ hlogpos]
        exact hlog
      have hceil : ((d - 1 : ℕ) : ℝ) <
          ((⌈(L : ℝ) * (Real.log 256 / Real.log 58)⌉ : ℤ) : ℝ) :=
        lt_of_lt_of_le hx (Int.le_ceil _)
      have hZ : ((d - 1 : ℕ) : ℤ) < ⌈(L : ℝ) * (Real.log 256 / Real.log 58)⌉ := by
        exact_mod_cast hceil
      omega
    · have hkey : 100 * (z + (d - 1)) ≤ 138 * L := by
        by_contra hcon
        push_neg at hcon
        have h1 : (256 ^ T) ^ 100 ≤ (58 ^ (d - 1)) ^ 100 := by
          calc (256 ^ T) ^ 100 = (256 ^ 100) ^ T := by
                rw [← pow_mul, ← pow_mul, Nat.mul_comm]
            _ ≤ (58 ^ 138) ^ T := Nat.pow_le_pow_left (le_of_lt pow_100_lt) T
            _ = 58 ^ (138 * T) := by rw [← pow_mul]
            _ ≤ 58 ^ (100 * (d - 1)) := Nat.pow_le_pow_right (by omega) (by omega)
            _ = (58 ^ (d - 1)) ^ 100 := by rw [Nat.mul_comm, pow_mul]
        have h2 : (58 ^ (d - 1)) ^ 100 < (256 ^ T) ^ 100 :=
          Nat.pow_lt_pow_left hcore (by omega)
        omega
      have hdiv : z + (d - 1) ≤ L * 138 / 100 := by
        rw [Nat.le_div_iff_mul_le (by omega : 0 < 100)]
        omega
      omega

/-- Witness for C8: the bound evaluated for the payload `[0, 0, 255]` with
the default alphabet. -/
theorem encode_length_bound_witness :
    (∀ x ∈ ([0, 0, 255] : List Nat), x < 256) ∧
      ((((encodeBase DEFAULT [0, 0, 255]).length : ℤ) ≤
          ⌈(([0, 0, 255] : List Nat).length : ℝ) * (Real.log 256 / Real.log 58)⌉ +
            ((([0, 0, 255] : List Nat).takeWhile (· == 0)).length : ℤ)) ∧
        (encodeBase DEFAULT [0, 0, 255]).length ≤
          ([0, 0, 255] : List Nat).length * 138 / 100 + 1) :=
  ⟨by decide, encode_length_bound DEFAULT [0, 0, 255] (by decide)⟩

end Bs58
